import Mathlib

/-!
Shallow embedding of the scraper engine in `src/main.py`.

Strings are modelled as `List Char`.  Python whitespace is restricted to the
ASCII whitespace characters (the inputs of interest are ASCII).  The regex
searches of `_extract` are embedded as direct left-to-right scanners: the two
patterns have no backtracking ambiguity (each quantified class is disjoint
from what follows it), so leftmost-match greedy semantics coincide with the
scanners below.
-/

namespace Scraper

abbrev Str := List Char

def strL (s : String) : Str := s.toList

/-- ASCII whitespace, the characters `str.split()` and `\s` agree on. -/
def isPyWs (c : Char) : Bool :=
  c == ' ' || c == '\t' || c == '\n' || c == '\r' || c == '\x0b' || c == '\x0c'

/-- `text.split()`: maximal runs of non-whitespace characters, in order.
`acc` holds the current word reversed. -/
def wordsAux : Str → Str → List Str
  | acc, [] => if acc.isEmpty then [] else [acc.reverse]
  | acc, c :: cs =>
    if isPyWs c then
      if acc.isEmpty then wordsAux [] cs else acc.reverse :: wordsAux [] cs
    else wordsAux (c :: acc) cs

def pyWords (s : Str) : List Str := wordsAux [] s

/-- `" ".join(text.split())` — the collapse performed first by `_extract`. -/
def collapseWs (s : Str) : Str := List.intercalate [' '] (pyWords s)

/-- Replace every maximal whitespace run by a single space (the flag records
whether the previous character was whitespace). -/
def normAux : Bool → Str → Str
  | _, [] => []
  | prevWs, c :: cs =>
    if isPyWs c then
      if prevWs then normAux true cs else ' ' :: normAux true cs
    else c :: normAux false cs

def normalizeWs (s : Str) : Str := normAux false s

/-- Case-insensitive literal match at the head; `lit` is lowercase.
Returns the rest of the input on success. -/
def matchLitCI : Str → Str → Option Str
  | [], s => some s
  | _ :: _, [] => none
  | l :: ls, c :: cs => if Char.toLower c = l then matchLitCI ls cs else none

def isContractChar (c : Char) : Bool := c.isDigit || c == '.' || c == '/' || c == '-'

def isAmountChar (c : Char) : Bool := c.isDigit || c == '.' || c == ','

def contratoLit : Str := strL "contrato"
def valorLit : Str := strL "valor"
def totalLit : Str := strL "total"
def rsLit : Str := strL "r$"

/-- Try the contract pattern (case-insensitive) at this position: literal
`Contrato`, one or more whitespace, then 3+ characters among digits, dot,
slash, dash. -/
def tryContract (s : Str) : Option Str :=
  match matchLitCI contratoLit s with
  | none => none
  | some r =>
    if (r.takeWhile isPyWs).isEmpty then none
    else
      let tok := (r.dropWhile isPyWs).takeWhile isContractChar
      if tok.length < 3 then none else some tok

/-- `re.search` for the contract pattern: leftmost position that matches. -/
def searchContract : Str → Option Str
  | [] => none
  | c :: cs =>
    match tryContract (c :: cs) with
    | some t => some t
    | none => searchContract cs

/-- Try the amount pattern (case-insensitive) at this position: literal
`Valor`, optional whitespace, `total`, optional whitespace, the two characters
r and dollar, optional whitespace, then 1+ characters among digits, dot,
comma. -/
def tryAmount (s : Str) : Option Str :=
  match matchLitCI valorLit s with
  | none => none
  | some r1 =>
    match matchLitCI totalLit (r1.dropWhile isPyWs) with
    | none => none
    | some r2 =>
      match matchLitCI rsLit (r2.dropWhile isPyWs) with
      | none => none
      | some r3 =>
        let tok := (r3.dropWhile isPyWs).takeWhile isAmountChar
        if tok.isEmpty then none else some tok

/-- `re.search` for the amount pattern: leftmost position that matches. -/
def searchAmount : Str → Option Str
  | [] => none
  | c :: cs =>
    match tryAmount (c :: cs) with
    | some t => some t
    | none => searchAmount cs

/-- `ContractData` of `src/main.py` (`contract`/`amount`, each possibly absent). -/
structure ContractData where
  contract : Option Str
  amount : Option Str
deriving DecidableEq

/-- `_extract(text)` of `src/main.py`: collapse whitespace, then the two
regex searches. -/
def _extract (text : Str) : ContractData :=
  let t := collapseWs text
  { contract := searchContract t, amount := searchAmount t }

/-- Environment of one `extract_from_context` call: the structured-tier
locator reads (`inner_text` of the contract line and of the amount line),
`none` when they time out, and the flattened text of the container's full
markup (`BeautifulSoup(html).get_text(" ")`). -/
structure DetailCtx where
  structuredRead : Option (Str × Str)
  pageText : Str

/-- `extract_from_context` of `src/main.py`: structured tier first; fall back
to the flattened markup when the reads time out or either field is missing. -/
def extract_from_context (ctx : DetailCtx) : ContractData :=
  match ctx.structuredRead with
  | some (ct, vt) =>
    let d := _extract (ct ++ ' ' :: vt)
    if d.contract.isSome && d.amount.isSome then d else _extract ctx.pageText
  | none => _extract ctx.pageText

def DETAIL_URL_PART : Str := strL "/portal/compras/contratoView"

/-- One raw entry of the single batched JS read in `collect_rows`:
`getAttribute('href') or the empty string`, plus the nearest-row text. -/
structure RawItem where
  href : Str
  text : Str
deriving DecidableEq

/-- Set membership on the modelled visited/seen sets (Python `in`). -/
def memStr (h : Str) : List Str → Bool
  | [] => false
  | v :: vs => if v = h then true else memStr h vs

def isPrefixLit : Str → Str → Bool
  | [], _ => true
  | _ :: _, [] => false
  | a :: as, b :: bs => decide (a = b) && isPrefixLit as bs

/-- Python substring containment `needle in hay`. -/
def hasSub : Str → Str → Bool
  | n, [] => n.isEmpty
  | n, c :: cs => isPrefixLit n (c :: cs) || hasSub n cs

/-- The per-entry keep condition of `collect_rows`: token non-empty and
containing `DETAIL_URL_PART` (negation of `not href or DETAIL_URL_PART not
in href`). -/
def goodHref (h : Str) : Bool := !h.isEmpty && hasSub DETAIL_URL_PART h

/-- The Python loop of `collect_rows`: `seen` is the in-batch dedup set. -/
def collectAux (visited : List Str) : List RawItem → List Str → List (Str × Str)
  | [], _ => []
  | it :: rest, seen =>
    if !goodHref it.href then collectAux visited rest seen
    else if memStr it.href visited || memStr it.href seen then
      collectAux visited rest seen
    else (it.href, it.text) :: collectAux visited rest (it.href :: seen)

/-- `collect_rows(page, visited)` of `src/main.py`, as a function of the raw
batch read from the view. -/
def collect_rows (visited : List Str) (items : List RawItem) : List (Str × Str) :=
  collectAux visited items []

/-- `page_signature` of `src/main.py`: hrefs of the visible row links,
filtered to those containing `DETAIL_URL_PART`, joined with a bar. -/
def page_signature (hrefs : List Str) : Str :=
  List.intercalate (strL "|") (hrefs.filter (fun h => hasSub DETAIL_URL_PART h))

/-- Run-wide mutable state of `scrape`: the visited token set, the stash of
extracted records, and (for the dedup statements) the log of tokens passed to
`open_details_and_extract`, in call order. -/
structure CrawlState where
  visited : List Str
  stash : List ContractData
  fetched : List Str
deriving DecidableEq

def initState : CrawlState := { visited := [], stash := [], fetched := [] }

/-- `details.get("contract") and details.get("amount")` — both fields present.
Python tests truthiness (a present-but-empty string would be falsy), but the
extractor only ever produces non-empty matched groups (the contract group has
3+ characters and the amount group 1+, see `extract_present_fields_nonempty`),
so presence coincides with truthiness on every record the fetcher can hand
back. -/
def goodRecord (d : ContractData) : Bool := d.contract.isSome && d.amount.isSome

/-- The row loop of `process_current_table`.  `fetch` abstracts
`open_details_and_extract`: `Except.error` is a raised exception.  The source
has `try ... finally visited.add(href)` with no `except` clause, so on a raised
fetch the token is still added to `visited` and the exception propagates:
the remaining rows are not processed and the error is returned. -/
def processRowsE (fetch : Str → Except Unit ContractData) :
    List (Str × Str) → CrawlState → CrawlState × Option Unit
  | [], st => (st, none)
  | (h, _) :: rest, st =>
    match fetch h with
    | Except.ok d =>
      processRowsE fetch rest
        { visited := h :: st.visited
          stash := if goodRecord d then st.stash ++ [d] else st.stash
          fetched := st.fetched ++ [h] }
    | Except.error e =>
      ({ st with visited := h :: st.visited, fetched := st.fetched ++ [h] },
        some e)

/-- `process_current_table`: enumerate new rows against the current visited
set, then process them in order. -/
def stepE (fetch : Str → Except Unit ContractData) (st : CrawlState)
    (items : List RawItem) : CrawlState × Option Unit :=
  processRowsE fetch (collect_rows st.visited items) st

/-- The page loop of `scrape`: one batch of raw link entries per enumeration
(the view contents at each `process_current_table` call); an uncaught per-row
exception ends the run (no handler in `scrape` either). -/
def crawlE (fetch : Str → Except Unit ContractData) :
    List (List RawItem) → CrawlState → CrawlState × Option Unit
  | [], st => (st, none)
  | items :: rest, st =>
    match stepE fetch st items with
    | (st', none) => crawlE fetch rest st'
    | (st', some e) => (st', some e)

/-- The located next control: its `class` and `aria-disabled` attribute
values (the source turns a missing attribute into the empty string). -/
structure NextBtn where
  cls : Str
  aria : Str
deriving DecidableEq

def lowerStr (s : Str) : Str := s.map Char.toLower

def disabledLit : Str := strL "disabled"

/-- `"disabled" in cls or aria in ("true", "disabled")` after lowering. -/
def btnDisabled (b : NextBtn) : Bool :=
  hasSub disabledLit (lowerStr b.cls)
    || decide (lowerStr b.aria = strL "true")
    || decide (lowerStr b.aria = strL "disabled")

/-- The signature-polling loop of `click_next`: `sig i` is `page_signature`
recomputed at the i-th poll; fuel 50 is the iteration count of
`while waited < 10000` with `step = 200`.  Changed means non-empty and
different from the pre-click signature. -/
def pollChanged (sig : Nat → Str) (prev : Str) : Nat → Nat → Bool
  | _, 0 => false
  | i, Nat.succ fuel =>
    if !(sig i).isEmpty && decide (sig i ≠ prev) then true
    else pollChanged sig prev (i + 1) fuel

/-- The row-polling loop of `wait_table_ready`: `rv i` is whether the visible
row-link count is positive at the i-th poll; fuel 50 is the iteration count of
`while waited < 10000` with `step = 200` (the scroll nudge is caught). -/
def waitLoop (rv : Nat → Bool) : Nat → Nat → Bool
  | _, 0 => false
  | i, Nat.succ fuel => if rv i then true else waitLoop rv (i + 1) fuel

/-- `wait_table_ready` of `src/main.py`: poll for a visible row link; on
budget exhaustion fall back to `wait_for_selector("table tbody",
timeout=4000)`, which raises (`Except.error`) when the container does not
appear within its own bound (`containerOk`). -/
def wait_table_ready (rv : Nat → Bool) (containerOk : Bool) : Except Unit Unit :=
  if waitLoop rv 0 50 then Except.ok ()
  else if containerOk then Except.ok () else Except.error ()

/-- `click_next` of `src/main.py`.  `btn` is the located control (`none` when
`btn.count()` is zero), `prevSig` the pre-click signature, `sig` the polled
signature stream, `clickFails` whether both the direct click and the
programmatic dispatch raise (that exception propagates), and `rvAfter` /
`containerOk` the environment of the trailing `wait_table_ready` call.
Result: the returned/raised outcome, paired with whether a click was
attempted. -/
def click_next (btn : Option NextBtn) (prevSig : Str) (sig : Nat → Str)
    (clickFails : Bool) (rvAfter : Nat → Bool) (containerOk : Bool) :
    Except Unit Bool × Bool :=
  match btn with
  | none => (Except.ok false, false)
  | some b =>
    if btnDisabled b then (Except.ok false, false)
    else if clickFails then (Except.error (), true)
    else if pollChanged sig prevSig 0 50 then
      match wait_table_ready rvAfter containerOk with
      | Except.ok _ => (Except.ok true, true)
      | Except.error e => (Except.error e, true)
    else (Except.ok false, true)

theorem memStr_iff (h : Str) (vs : List Str) : memStr h vs = true ↔ h ∈ vs := by
  induction vs with
  | nil => simp [memStr]
  | cons v vs ih =>
    by_cases hv : v = h
    · subst hv; simp [memStr]
    · simp only [memStr, if_neg hv, ih, List.mem_cons]
      constructor
      · exact Or.inr
      · rintro (rfl | hm)
        · exact absurd rfl hv
        · exact hm

theorem memStr_cons_self (h : Str) (vs : List Str) : memStr h (h :: vs) = true := by
  simp [memStr]

theorem memStr_cons_of {h : Str} {vs : List Str} (x : Str) (hm : memStr h vs = true) :
    memStr h (x :: vs) = true := by
  by_cases hx : x = h <;> simp [memStr, hx, hm]

theorem memStr_cons_false {h x : Str} {vs : List Str} (hm : memStr h (x :: vs) = false) :
    x ≠ h ∧ memStr h vs = false := by
  by_cases hx : x = h
  · simp [memStr, hx] at hm
  · exact ⟨hx, by simpa [memStr, hx] using hm⟩

theorem memStr_cons_false_of {h x : Str} {vs : List Str} (hx : x ≠ h)
    (hm : memStr h vs = false) : memStr h (x :: vs) = false := by
  simp [memStr, hx, hm]

theorem memStr_cons_true {h x : Str} {vs : List Str} (hm : memStr h (x :: vs) = true) :
    x = h ∨ memStr h vs = true := by
  by_cases hx : x = h
  · exact Or.inl hx
  · exact Or.inr (by simpa [memStr, hx] using hm)

theorem isPyWs_space : isPyWs ' ' = true := rfl

theorem wordsAux_normAux (cs : Str) : ∀ (b : Bool) (acc : Str), (b = true → acc = []) →
    wordsAux acc (normAux b cs) = wordsAux acc cs := by
  induction cs with
  | nil => intro b acc _; cases b <;> rfl
  | cons c cs ih =>
    intro b acc hb
    cases hw : isPyWs c with
    | false =>
      cases b with
      | false =>
        simp only [normAux, hw, Bool.false_eq_true, if_false, wordsAux]
        exact ih false (c :: acc) (fun h => nomatch h)
      | true =>
        have ha := hb rfl; subst ha
        simp only [normAux, hw, Bool.false_eq_true, if_false, wordsAux]
        exact ih false [c] (fun h => nomatch h)
    | true =>
      cases b with
      | true =>
        have ha := hb rfl; subst ha
        simp only [normAux, hw, if_true]
        rw [ih true [] (fun _ => rfl)]
        simp [wordsAux, hw]
      | false =>
        simp only [normAux, hw, if_true, Bool.false_eq_true, if_false]
        simp only [wordsAux, hw, isPyWs_space, if_true]
        rw [ih true [] (fun _ => rfl)]

theorem pyWords_normalizeWs (s : Str) : pyWords (normalizeWs s) = pyWords s :=
  wordsAux_normAux s false [] (fun h => nomatch h)

theorem isPrefixLit_append (n r : Str) : isPrefixLit n (n ++ r) = true := by
  induction n with
  | nil => rfl
  | cons a as ih => simp [isPrefixLit, ih]

theorem hasSub_of_isPrefixLit {n h : Str} (hp : isPrefixLit n h = true) :
    hasSub n h = true := by
  cases h with
  | nil =>
    cases n with
    | nil => rfl
    | cons a as => simp [isPrefixLit] at hp
  | cons c cs => simp [hasSub, hp]

theorem hasSub_cons {n h : Str} (c : Char) (hs : hasSub n h = true) :
    hasSub n (c :: h) = true := by
  simp [hasSub, hs]

theorem hasSub_append (pre n suf : Str) : hasSub n (pre ++ n ++ suf) = true := by
  induction pre with
  | nil => exact hasSub_of_isPrefixLit (isPrefixLit_append n suf)
  | cons c pre ih => exact hasSub_cons c ih

theorem wordsAux_decomp : ∀ (s acc w : Str), w ∈ wordsAux acc s →
    (∃ t r, s = t ++ r ∧ w = acc.reverse ++ t) ∨ (∃ pre suf, s = pre ++ w ++ suf) := by
  intro s
  induction s with
  | nil =>
    intro acc w hw
    cases acc with
    | nil => simp [wordsAux] at hw
    | cons a as =>
      simp [wordsAux] at hw
      exact Or.inl ⟨[], [], rfl, by simp [hw]⟩
  | cons c cs ih =>
    intro acc w hw
    cases hws : isPyWs c with
    | false =>
      rw [show wordsAux acc (c :: cs) = wordsAux (c :: acc) cs from by
        simp [wordsAux, hws]] at hw
      rcases ih (c :: acc) w hw with ⟨t, r, hs, hwv⟩ | ⟨pre, suf, hs⟩
      · exact Or.inl ⟨c :: t, r, by simp [hs], by simp [hwv]⟩
      · exact Or.inr ⟨c :: pre, suf, by simp [hs]⟩
    | true =>
      cases acc with
      | nil =>
        have hw' : w ∈ wordsAux [] cs := by simpa [wordsAux, hws] using hw
        rcases ih [] w hw' with ⟨t, r, hs, hwv⟩ | ⟨pre, suf, hs⟩
        · exact Or.inr ⟨[c], r, by simp [hs, hwv]⟩
        · exact Or.inr ⟨c :: pre, suf, by simp [hs]⟩
      | cons a as =>
        have hw' : w = (a :: as).reverse ∨ w ∈ wordsAux [] cs := by
          simpa [wordsAux, hws] using hw
        rcases hw' with rfl | hw'
        · exact Or.inl ⟨[], c :: cs, rfl, by simp⟩
        · rcases ih [] w hw' with ⟨t, r, hs, hwv⟩ | ⟨pre, suf, hs⟩
          · exact Or.inr ⟨[c], r, by simp [hs, hwv]⟩
          · exact Or.inr ⟨c :: pre, suf, by simp [hs]⟩

theorem word_hasSub {s w : Str} (hw : w ∈ pyWords s) : hasSub w s = true := by
  rcases wordsAux_decomp s [] w hw with ⟨t, r, hs, hwv⟩ | ⟨pre, suf, hs⟩
  · have hwt : w = t := by simpa using hwv
    subst hwt; subst hs
    exact hasSub_append [] w r
  · subst hs
    exact hasSub_append pre w suf

theorem collectAux_sound (v : List Str) : ∀ (items : List RawItem) (seen : List Str)
    (p : Str × Str), p ∈ collectAux v items seen →
    goodHref p.1 = true ∧ memStr p.1 v = false ∧ memStr p.1 seen = false := by
  intro items
  induction items with
  | nil => intro seen p hp; simp [collectAux] at hp
  | cons it rest ih =>
    intro seen p hp
    cases hg : goodHref it.href with
    | false =>
      rw [show collectAux v (it :: rest) seen = collectAux v rest seen from by
        simp [collectAux, hg]] at hp
      exact ih seen p hp
    | true =>
      cases hm : (memStr it.href v || memStr it.href seen) with
      | true =>
        rw [show collectAux v (it :: rest) seen = collectAux v rest seen from by
          simp [collectAux, hg, hm]] at hp
        exact ih seen p hp
      | false =>
        have hmv : memStr it.href v = false := by
          cases hx : memStr it.href v
          · rfl
          · rw [hx] at hm; simp at hm
        have hms : memStr it.href seen = false := by
          cases hx : memStr it.href seen
          · rfl
          · rw [hx] at hm; simp at hm
        rw [show collectAux v (it :: rest) seen
            = (it.href, it.text) :: collectAux v rest (it.href :: seen) from by
          simp [collectAux, hg, hm]] at hp
        rcases List.mem_cons.mp hp with rfl | hp'
        · exact ⟨hg, hmv, hms⟩
        · have h3 := ih (it.href :: seen) p hp'
          exact ⟨h3.1, h3.2.1, (memStr_cons_false h3.2.2).2⟩

theorem collectAux_nodup (v : List Str) : ∀ (items : List RawItem) (seen : List Str),
    ((collectAux v items seen).map Prod.fst).Nodup := by
  intro items
  induction items with
  | nil => intro seen; simp [collectAux]
  | cons it rest ih =>
    intro seen
    cases hg : goodHref it.href with
    | false => simpa [collectAux, hg] using ih seen
    | true =>
      cases hm : (memStr it.href v || memStr it.href seen) with
      | true => simpa [collectAux, hg, hm] using ih seen
      | false =>
        have hnotin : it.href ∉ (collectAux v rest (it.href :: seen)).map Prod.fst := by
          intro hmem
          rcases List.mem_map.mp hmem with ⟨p, hp, hfst⟩
          have h3 := (collectAux_sound v rest (it.href :: seen) p hp).2.2
          rw [hfst] at h3
          rw [memStr_cons_self] at h3
          exact nomatch h3
        rw [show collectAux v (it :: rest) seen
            = (it.href, it.text) :: collectAux v rest (it.href :: seen) from by
          simp [collectAux, hg, hm]]
        simp only [List.map_cons, List.nodup_cons]
        exact ⟨hnotin, ih (it.href :: seen)⟩

theorem collectAux_sublist (v : List Str) : ∀ (items : List RawItem) (seen : List Str),
    List.Sublist (collectAux v items seen) (items.map (fun it => (it.href, it.text))) := by
  intro items
  induction items with
  | nil => intro seen; simp [collectAux]
  | cons it rest ih =>
    intro seen
    cases hg : goodHref it.href with
    | false =>
      rw [show collectAux v (it :: rest) seen = collectAux v rest seen from by
        simp [collectAux, hg]]
      exact (ih seen).cons _
    | true =>
      cases hm : (memStr it.href v || memStr it.href seen) with
      | true =>
        rw [show collectAux v (it :: rest) seen = collectAux v rest seen from by
          simp [collectAux, hg, hm]]
        exact (ih seen).cons _
      | false =>
        rw [show collectAux v (it :: rest) seen
            = (it.href, it.text) :: collectAux v rest (it.href :: seen) from by
          simp [collectAux, hg, hm]]
        exact (ih (it.href :: seen)).cons₂ _

theorem collectAux_complete (v : List Str) : ∀ (items : List RawItem) (seen : List Str)
    (it : RawItem), it ∈ items → goodHref it.href = true → memStr it.href v = false →
    memStr it.href seen = true ∨ it.href ∈ (collectAux v items seen).map Prod.fst := by
  intro items
  induction items with
  | nil => intro seen it hit; exact absurd hit (List.not_mem_nil it)
  | cons it0 rest ih =>
    intro seen it hit hg hv
    rcases List.mem_cons.mp hit with rfl | hit'
    · cases hseen : memStr it.href seen with
      | true => exact Or.inl rfl
      | false =>
        have hm : (memStr it.href v || memStr it.href seen) = false := by
          simp [hv, hseen]
        right
        rw [show collectAux v (it :: rest) seen
            = (it.href, it.text) :: collectAux v rest (it.href :: seen) from by
          simp [collectAux, hg, hm]]
        simp
    · cases hg0 : goodHref it0.href with
      | false =>
        rw [show collectAux v (it0 :: rest) seen = collectAux v rest seen from by
          simp [collectAux, hg0]]
        exact ih seen it hit' hg hv
      | true =>
        cases hm0 : (memStr it0.href v || memStr it0.href seen) with
        | true =>
          rw [show collectAux v (it0 :: rest) seen = collectAux v rest seen from by
            simp [collectAux, hg0, hm0]]
          exact ih seen it hit' hg hv
        | false =>
          rw [show collectAux v (it0 :: rest) seen
              = (it0.href, it0.text) :: collectAux v rest (it0.href :: seen) from by
            simp [collectAux, hg0, hm0]]
          rcases ih (it0.href :: seen) it hit' hg hv with hs | hmem
          · rcases memStr_cons_true hs with heq | hs'
            · right; simp [heq]
            · exact Or.inl hs'
          · right; simp only [List.map_cons, List.mem_cons]; exact Or.inr hmem

theorem collectAux_first (v : List Str) : ∀ (items : List RawItem) (seen : List Str)
    (h t : Str), (h, t) ∈ collectAux v items seen → memStr h seen = false →
    ∃ pre post, items = pre ++ RawItem.mk h t :: post ∧ ∀ it ∈ pre, it.href ≠ h := by
  intro items
  induction items with
  | nil => intro seen h t hp; simp [collectAux] at hp
  | cons it0 rest ih =>
    intro seen h t hp hse
    cases hg0 : goodHref it0.href with
    | false =>
      rw [show collectAux v (it0 :: rest) seen = collectAux v rest seen from by
        simp [collectAux, hg0]] at hp
      obtain ⟨pre, post, heq, hpre⟩ := ih seen h t hp hse
      have hgh := (collectAux_sound v rest seen (h, t) hp).1
      refine ⟨it0 :: pre, post, by simp [heq], ?_⟩
      intro it hit
      rcases List.mem_cons.mp hit with rfl | hit'
      · intro hc; rw [hc] at hg0; rw [hg0] at hgh; exact nomatch hgh
      · exact hpre it hit'
    | true =>
      cases hm0 : (memStr it0.href v || memStr it0.href seen) with
      | true =>
        rw [show collectAux v (it0 :: rest) seen = collectAux v rest seen from by
          simp [collectAux, hg0, hm0]] at hp
        obtain ⟨pre, post, heq, hpre⟩ := ih seen h t hp hse
        have hsnd := (collectAux_sound v rest seen (h, t) hp).2
        refine ⟨it0 :: pre, post, by simp [heq], ?_⟩
        intro it hit
        rcases List.mem_cons.mp hit with rfl | hit'
        · intro hc
          rw [hc] at hm0
          rcases Bool.or_eq_true_iff.mp hm0 with hx | hx
          · rw [hsnd.1] at hx; exact nomatch hx
          · rw [hse] at hx; exact nomatch hx
        · exact hpre it hit'
      | false =>
        rw [show collectAux v (it0 :: rest) seen
            = (it0.href, it0.text) :: collectAux v rest (it0.href :: seen) from by
          simp [collectAux, hg0, hm0]] at hp
        rcases List.mem_cons.mp hp with heq | hp'
        · have h1 : it0.href = h := congrArg Prod.fst heq.symm
          have h2 : it0.text = t := congrArg Prod.snd heq.symm
          refine ⟨[], rest, ?_, by simp⟩
          have : RawItem.mk h t = it0 := by cases it0; simp_all
          simp [this]
        · have hsnd := (collectAux_sound v rest (it0.href :: seen) (h, t) hp').2.2
          have hne := (memStr_cons_false hsnd).1
          obtain ⟨pre, post, heq, hpre⟩ := ih (it0.href :: seen) h t hp' hsnd
          refine ⟨it0 :: pre, post, by simp [heq], ?_⟩
          intro it hit
          rcases List.mem_cons.mp hit with rfl | hit'
          · exact hne
          · exact hpre it hit'

theorem collectAux_empty (v : List Str) : ∀ (items : List RawItem) (seen : List Str),
    (∀ it ∈ items, goodHref it.href = true → memStr it.href v = true) →
    collectAux v items seen = [] := by
  intro items
  induction items with
  | nil => intro seen _; rfl
  | cons it0 rest ih =>
    intro seen hall
    cases hg0 : goodHref it0.href with
    | false =>
      rw [show collectAux v (it0 :: rest) seen = collectAux v rest seen from by
        simp [collectAux, hg0]]
      exact ih seen (fun it hit => hall it (List.mem_cons_of_mem _ hit))
    | true =>
      have hv := hall it0 (List.mem_cons_self it0 rest) hg0
      have hm : (memStr it0.href v || memStr it0.href seen) = true := by simp [hv]
      rw [show collectAux v (it0 :: rest) seen = collectAux v rest seen from by
        simp [collectAux, hg0, hm]]
      exact ih seen (fun it hit => hall it (List.mem_cons_of_mem _ hit))

theorem processRowsE_visited_mono (fetch : Str → Except Unit ContractData) :
    ∀ (rows : List (Str × Str)) (st : CrawlState) (h : Str),
    memStr h st.visited = true →
    memStr h (processRowsE fetch rows st).1.visited = true := by
  intro rows
  induction rows with
  | nil => intro st h hm; exact hm
  | cons p rest ih =>
    obtain ⟨h0, t0⟩ := p
    intro st h hm
    cases hf : fetch h0 with
    | ok d =>
      simp only [processRowsE, hf]
      exact ih _ h (memStr_cons_of h0 hm)
    | error e =>
      simp only [processRowsE, hf]
      exact memStr_cons_of h0 hm

theorem processRowsE_visited_rows (fetch : Str → Except Unit ContractData) :
    ∀ (rows : List (Str × Str)) (st : CrawlState),
    (processRowsE fetch rows st).2 = none →
    ∀ p ∈ rows, memStr p.1 (processRowsE fetch rows st).1.visited = true := by
  intro rows
  induction rows with
  | nil => intro st _ p hp; exact absurd hp (List.not_mem_nil p)
  | cons q rest ih =>
    obtain ⟨h0, t0⟩ := q
    intro st hnone p hp
    cases hf : fetch h0 with
    | error e => simp [processRowsE, hf] at hnone
    | ok d =>
      simp only [processRowsE, hf] at hnone ⊢
      rcases List.mem_cons.mp hp with rfl | hp'
      · exact processRowsE_visited_mono fetch rest _ _ (memStr_cons_self h0 _)
      · exact ih _ hnone p hp'

theorem processRowsE_inv (fetch : Str → Except Unit ContractData) :
    ∀ (rows : List (Str × Str)) (st : CrawlState),
    (rows.map Prod.fst).Nodup →
    (∀ p ∈ rows, memStr p.1 st.visited = false) →
    st.fetched.Nodup →
    (∀ h ∈ st.fetched, memStr h st.visited = true) →
    (processRowsE fetch rows st).1.fetched.Nodup ∧
      ∀ h ∈ (processRowsE fetch rows st).1.fetched,
        memStr h (processRowsE fetch rows st).1.visited = true := by
  intro rows
  induction rows with
  | nil => intro st _ _ h3 h4; exact ⟨h3, h4⟩
  | cons q rest ih =>
    obtain ⟨h0, t0⟩ := q
    intro st h1 h2 h3 h4
    have hnotv : memStr h0 st.visited = false := h2 (h0, t0) (List.mem_cons_self _ _)
    have hnotf : h0 ∉ st.fetched := by
      intro hmem
      rw [h4 h0 hmem] at hnotv
      exact nomatch hnotv
    have hndup : (st.fetched ++ [h0]).Nodup := by
      simp [List.nodup_append, h3, hnotf]
    have hmem' : ∀ h ∈ st.fetched ++ [h0], memStr h (h0 :: st.visited) = true := by
      intro h hh
      rcases List.mem_append.mp hh with hh | hh
      · exact memStr_cons_of h0 (h4 h hh)
      · rw [List.mem_singleton.mp hh]
        exact memStr_cons_self h0 _
    simp only [List.map_cons, List.nodup_cons] at h1
    cases hf : fetch h0 with
    | error e =>
      simp only [processRowsE, hf]
      exact ⟨hndup, hmem'⟩
    | ok d =>
      simp only [processRowsE, hf]
      apply ih
      · exact h1.2
      · intro p hp
        refine memStr_cons_false_of ?_ (h2 p (List.mem_cons_of_mem _ hp))
        intro hc
        exact h1.1 (hc ▸ List.mem_map_of_mem Prod.fst hp)
      · exact hndup
      · exact hmem'

theorem processRowsE_stash (fetch : Str → Except Unit ContractData) :
    ∀ (rows : List (Str × Str)) (st : CrawlState),
    (∀ d ∈ st.stash, goodRecord d = true) →
    (∀ h, h ∈ st.fetched → ∀ d, fetch h = Except.ok d → goodRecord d = true →
      d ∈ st.stash) →
    (∀ d ∈ (processRowsE fetch rows st).1.stash, goodRecord d = true) ∧
      (∀ h, h ∈ (processRowsE fetch rows st).1.fetched →
        ∀ d, fetch h = Except.ok d → goodRecord d = true →
          d ∈ (processRowsE fetch rows st).1.stash) := by
  intro rows
  induction rows with
  | nil => intro st hs hc; exact ⟨hs, hc⟩
  | cons q rest ih =>
    obtain ⟨h0, t0⟩ := q
    intro st hs hc
    cases hf : fetch h0 with
    | error e =>
      simp only [processRowsE, hf]
      refine ⟨hs, ?_⟩
      intro h hh d hok hgd
      rcases List.mem_append.mp hh with hh | hh
      · exact hc h hh d hok hgd
      · rw [List.mem_singleton.mp hh] at hok
        rw [hf] at hok
        exact nomatch hok
    | ok d0 =>
      simp only [processRowsE, hf]
      apply ih
      · intro d hd
        cases hgd0 : goodRecord d0 with
        | false => simp only [hgd0, Bool.false_eq_true, if_false] at hd; exact hs d hd
        | true =>
          simp only [hgd0, if_true] at hd
          rcases List.mem_append.mp hd with hd | hd
          · exact hs d hd
          · rw [List.mem_singleton.mp hd]; exact hgd0
      · intro h hh d hok hgd
        have hsub : st.stash ⊆ (if goodRecord d0 then st.stash ++ [d0] else st.stash) := by
          cases goodRecord d0 <;> simp [List.subset_append_left]
        rcases List.mem_append.mp hh with hh | hh
        · exact hsub (hc h hh d hok hgd)
        · rw [List.mem_singleton.mp hh] at hok
          rw [hf] at hok
          have hd : d = d0 := (Except.ok.injEq _ _ ▸ hok).symm ▸ rfl
          subst hd
          simp [hgd]

theorem processRowsE_fail (fetch : Str → Except Unit ContractData) :
    ∀ (rows : List (Str × Str)) (st : CrawlState),
    (∃ p, p ∈ rows ∧ ∃ e, fetch p.1 = Except.error e) →
    ((processRowsE fetch rows st).2).isSome = true := by
  intro rows
  induction rows with
  | nil =>
    rintro st ⟨p, hp, _⟩
    exact absurd hp (List.not_mem_nil p)
  | cons q rest ih =>
    obtain ⟨h0, t0⟩ := q
    rintro st ⟨p, hp, e, he⟩
    cases hf : fetch h0 with
    | error e0 => simp [processRowsE, hf]
    | ok d =>
      simp only [processRowsE, hf]
      apply ih
      rcases List.mem_cons.mp hp with rfl | hp'
      · rw [hf] at he; exact nomatch he
      · exact ⟨p, hp', e, he⟩

theorem collect_rows_not_visited (visited : List Str) (items : List RawItem) :
    ∀ p ∈ collect_rows visited items, memStr p.1 visited = false :=
  fun p hp => (collectAux_sound visited items [] p hp).2.1

theorem crawlE_inv (fetch : Str → Except Unit ContractData) :
    ∀ (batches : List (List RawItem)) (st : CrawlState),
    st.fetched.Nodup →
    (∀ h ∈ st.fetched, memStr h st.visited = true) →
    (crawlE fetch batches st).1.fetched.Nodup ∧
      ∀ h ∈ (crawlE fetch batches st).1.fetched,
        memStr h (crawlE fetch batches st).1.visited = true := by
  intro batches
  induction batches with
  | nil => intro st h1 h2; exact ⟨h1, h2⟩
  | cons items rest ih =>
    intro st h1 h2
    have h5 := processRowsE_inv fetch (collect_rows st.visited items) st
      (collectAux_nodup st.visited items [])
      (collect_rows_not_visited st.visited items) h1 h2
    rcases hstep : processRowsE fetch (collect_rows st.visited items) st with ⟨st', err⟩
    rw [hstep] at h5
    cases err with
    | none =>
      rw [show crawlE fetch (items :: rest) st = crawlE fetch rest st' from by
        simp [crawlE, stepE, hstep]]
      exact ih st' h5.1 h5.2
    | some e =>
      rw [show crawlE fetch (items :: rest) st = (st', some e) from by
        simp [crawlE, stepE, hstep]]
      exact h5

theorem crawlE_stash (fetch : Str → Except Unit ContractData) :
    ∀ (batches : List (List RawItem)) (st : CrawlState),
    (∀ d ∈ st.stash, goodRecord d = true) →
    (∀ h, h ∈ st.fetched → ∀ d, fetch h = Except.ok d → goodRecord d = true →
      d ∈ st.stash) →
    (∀ d ∈ (crawlE fetch batches st).1.stash, goodRecord d = true) ∧
      (∀ h, h ∈ (crawlE fetch batches st).1.fetched →
        ∀ d, fetch h = Except.ok d → goodRecord d = true →
          d ∈ (crawlE fetch batches st).1.stash) := by
  intro batches
  induction batches with
  | nil => intro st hs hc; exact ⟨hs, hc⟩
  | cons items rest ih =>
    intro st hs hc
    have h5 := processRowsE_stash fetch (collect_rows st.visited items) st hs hc
    rcases hstep : processRowsE fetch (collect_rows st.visited items) st with ⟨st', err⟩
    rw [hstep] at h5
    cases err with
    | none =>
      rw [show crawlE fetch (items :: rest) st = crawlE fetch rest st' from by
        simp [crawlE, stepE, hstep]]
      exact ih st' h5.1 h5.2
    | some e =>
      rw [show crawlE fetch (items :: rest) st = (st', some e) from by
        simp [crawlE, stepE, hstep]]
      exact h5

theorem memStr_append (h : Str) (l1 l2 : List Str) :
    memStr h (l1 ++ l2) = (memStr h l1 || memStr h l2) := by
  induction l1 with
  | nil => simp [memStr]
  | cons v vs ih =>
    by_cases hv : v = h <;> simp [memStr, hv, ih]

theorem pollChanged_iff (sig : Nat → Str) (prev : Str) : ∀ (fuel i : Nat),
    pollChanged sig prev i fuel = true ↔
      ∃ j, j < fuel ∧ sig (i + j) ≠ [] ∧ sig (i + j) ≠ prev := by
  intro fuel
  induction fuel with
  | zero => intro i; simp [pollChanged]
  | succ fuel ih =>
    intro i
    cases hc : (!(sig i).isEmpty && decide (sig i ≠ prev)) with
    | true =>
      rw [show pollChanged sig prev i (fuel + 1) = true from by
        simp only [pollChanged, hc, if_true]]
      obtain ⟨hne, hnp⟩ := Bool.and_eq_true_iff.mp hc
      have hne' : sig i ≠ [] := by
        intro hnil
        rw [hnil] at hne
        exact nomatch hne
      have hnp' : sig i ≠ prev := of_decide_eq_true hnp
      constructor
      · intro _
        exact ⟨0, Nat.succ_pos fuel, by simpa using hne', by simpa using hnp'⟩
      · intro _; rfl
    | false =>
      rw [show pollChanged sig prev i (fuel + 1) = pollChanged sig prev (i + 1) fuel from by
        simp only [pollChanged, hc, Bool.false_eq_true, if_false]]
      rw [ih (i + 1)]
      constructor
      · rintro ⟨j, hj, ha, hb⟩
        refine ⟨j + 1, by omega, ?_, ?_⟩
        · have he : i + (j + 1) = i + 1 + j := by omega
          rw [he]; exact ha
        · have he : i + (j + 1) = i + 1 + j := by omega
          rw [he]; exact hb
      · rintro ⟨j, hj, ha, hb⟩
        cases j with
        | zero =>
          exfalso
          simp only [Nat.add_zero] at ha hb
          have : (!(sig i).isEmpty && decide (sig i ≠ prev)) = true := by
            have h1 : (sig i).isEmpty = false := by
              cases hsi : (sig i).isEmpty with
              | false => rfl
              | true => exact absurd (List.isEmpty_iff.mp hsi) ha
            simp [h1, hb]
          rw [this] at hc
          exact nomatch hc
        | succ j =>
          refine ⟨j, by omega, ?_, ?_⟩
          · have he : i + 1 + j = i + (j + 1) := by omega
            rw [he]; exact ha
          · have he : i + 1 + j = i + (j + 1) := by omega
            rw [he]; exact hb

theorem waitLoop_iff (rv : Nat → Bool) : ∀ (fuel i : Nat),
    waitLoop rv i fuel = true ↔ ∃ j, j < fuel ∧ rv (i + j) = true := by
  intro fuel
  induction fuel with
  | zero => intro i; simp [waitLoop]
  | succ fuel ih =>
    intro i
    cases hc : rv i with
    | true =>
      rw [show waitLoop rv i (fuel + 1) = true from by simp [waitLoop, hc]]
      exact ⟨fun _ => ⟨0, Nat.succ_pos fuel, by simpa using hc⟩, fun _ => rfl⟩
    | false =>
      rw [show waitLoop rv i (fuel + 1) = waitLoop rv (i + 1) fuel from by
        simp [waitLoop, hc]]
      rw [ih (i + 1)]
      constructor
      · rintro ⟨j, hj, ha⟩
        refine ⟨j + 1, by omega, ?_⟩
        have he : i + (j + 1) = i + 1 + j := by omega
        rw [he]; exact ha
      · rintro ⟨j, hj, ha⟩
        cases j with
        | zero =>
          simp only [Nat.add_zero] at ha
          rw [ha] at hc
          exact nomatch hc
        | succ j =>
          refine ⟨j, by omega, ?_⟩
          have he : i + 1 + j = i + (j + 1) := by omega
          rw [he]; exact ha

theorem goodHref_iff (h : Str) :
    goodHref h = true ↔ (h ≠ [] ∧ hasSub DETAIL_URL_PART h = true) := by
  cases h with
  | nil => simp [goodHref]
  | cons c cs => simp [goodHref]

theorem collapseWs_normalizeWs (s : Str) : collapseWs (normalizeWs s) = collapseWs s := by
  unfold collapseWs
  rw [pyWords_normalizeWs]

/-- Claim C1: over any run (any fetch outcomes, any sequence of enumerated
batches), the tokens passed to the detail fetcher form a set: enumeration
drops visited and in-batch duplicate tokens, and every fetched token enters
the visited set before the next enumeration, so the fetch log has no
duplicates. -/
theorem c1_fetched_tokens_form_a_set (fetch : Str → Except Unit ContractData)
    (batches : List (List RawItem)) :
    ((crawlE fetch batches initState).1.fetched).Nodup :=
  (crawlE_inv fetch batches initState List.nodup_nil
    (fun h hh => absurd hh (List.not_mem_nil h))).1

/-- Claim C2: `click_next` reports `true` only when some polled signature is
non-empty and differs from the pre-click signature (so an empty pre-click
signature never makes an empty post-click render count as changed), and when
the whole polling budget passes without such a signature the call returns
`false`. -/
theorem c2_advance_signature_conditions (btn : Option NextBtn) (prev : Str)
    (sig : Nat → Str) (cf : Bool) (rv : Nat → Bool) (co : Bool) :
    ((click_next btn prev sig cf rv co).1 = Except.ok true →
      ∃ i, i < 50 ∧ sig i ≠ [] ∧ sig i ≠ prev) ∧
    ((∀ i, i < 50 → sig i = [] ∨ sig i = prev) →
      (click_next btn prev sig false rv co).1 = Except.ok false) := by
  constructor
  · intro hok
    cases btn with
    | none => simp [click_next] at hok
    | some b =>
      cases hd : btnDisabled b with
      | true => simp [click_next, hd] at hok
      | false =>
        cases hcf : cf with
        | true => simp [click_next, hd, hcf] at hok
        | false =>
          cases hpc : pollChanged sig prev 0 50 with
          | false => simp [click_next, hd, hcf, hpc] at hok
          | true =>
            obtain ⟨j, hj, ha, hb⟩ := (pollChanged_iff sig prev 50 0).mp hpc
            exact ⟨j, hj, by simpa using ha, by simpa using hb⟩
  · intro hall
    have hpc : pollChanged sig prev 0 50 = false := by
      cases hx : pollChanged sig prev 0 50 with
      | false => rfl
      | true =>
        exfalso
        obtain ⟨j, hj, ha, hb⟩ := (pollChanged_iff sig prev 50 0).mp hx
        rw [Nat.zero_add] at ha hb
        rcases hall j hj with h | h
        · exact ha h
        · exact hb h
    cases btn with
    | none => rfl
    | some b =>
      cases hd : btnDisabled b with
      | true => simp [click_next, hd]
      | false => simp [click_next, hd, hpc]

/-- Witness for C2: a next control with no disabled marker, a constantly
empty signature stream and an empty pre-click signature make `click_next`
return `false` — the empty pre-click signature is not treated as changed. -/
theorem c2_advance_signature_conditions_witness :
    (click_next (some { cls := strL "pagination-next", aria := [] }) []
      (fun _ => []) false (fun _ => true) true).1 = Except.ok false :=
  (c2_advance_signature_conditions (some { cls := strL "pagination-next", aria := [] })
    [] (fun _ => []) false (fun _ => true) true).2 (fun _ _ => Or.inl rfl)

/-- Claim C10: `_extract` is total by construction (it always returns a
record with both fields, possibly absent) and depends only on the
whitespace-collapsed form of its input: replacing every maximal whitespace
run by a single space does not change its result. -/
theorem c10_extract_whitespace_invariance (t : Str) :
    _extract (normalizeWs t) = _extract t := by
  simp only [_extract, collapseWs_normalizeWs]

/-- Claim C5: the fallback tier applied to flattened markup containing
`Contrato 123.456-7` and `Valor total R$ 1.234,56` yields exactly those two
fields; a text with a too-short contract token and no amount digits yields
both fields absent but still a record; and each regex takes the first match
in the text. -/
theorem c5_extraction_regexes_and_fallback :
    extract_from_context (DetailCtx.mk none
        (strL "Dados do contrato Contrato 123.456-7 Valor total R$ 1.234,56"))
      = { contract := some (strL "123.456-7"), amount := some (strL "1.234,56") } ∧
    _extract (strL "Contrato 99 Valor total R$") = { contract := none, amount := none } ∧
    _extract (strL "Contrato 111.222 Contrato 333.444 Valor total R$ 1,0 Valor total R$ 2,0")
      = { contract := some (strL "111.222"), amount := some (strL "1,0") } :=
  ⟨rfl, rfl, rfl⟩

/-- Counterexample for C3: with a fetcher that raises on every row and one
page of two rows, the run ends with a propagated error after the first row —
the second row is never fetched and the crawl does not continue, refuting
"any failure is caught and the crawl continues with the next row or page".
The first row's token is nevertheless in the visited set (the `finally`). -/
theorem c3_row_failure_aborts_run_counterexample :
    crawlE (fun _ => Except.error ())
        [[RawItem.mk (strL "#/palmeira/portal/compras/contratoView/1") (strL "row 1"),
          RawItem.mk (strL "#/palmeira/portal/compras/contratoView/2") (strL "row 2")]]
        initState
      = ({ visited := [strL "#/palmeira/portal/compras/contratoView/1"],
           stash := [],
           fetched := [strL "#/palmeira/portal/compras/contratoView/1"] }, some ()) := by
  rfl

/-- Claim C3 (amended): a failure raised while fetching a row's detail view is
not caught by the orchestrator (only structured-read timeouts are caught
inside extraction); the row's token is still added to the visited set by the
`finally` clause, but the exception propagates out of `process_current_table`
and `scrape`, aborting the run — part one states that every token ever passed
to the fetcher, including a failing one in an aborted run, is in the visited
set; part two states that a failing row always makes row processing end with
a propagated error. -/
theorem c3_row_failure_marks_visited_and_propagates
    (fetch : Str → Except Unit ContractData) (batches : List (List RawItem)) :
    (∀ h ∈ (crawlE fetch batches initState).1.fetched,
      memStr h (crawlE fetch batches initState).1.visited = true) ∧
    (∀ (rows : List (Str × Str)) (st : CrawlState),
      (∃ p, p ∈ rows ∧ ∃ e, fetch p.1 = Except.error e) →
      ((processRowsE fetch rows st).2).isSome = true) :=
  ⟨(crawlE_inv fetch batches initState List.nodup_nil
      (fun h hh => absurd hh (List.not_mem_nil h))).2,
    fun rows st hex => processRowsE_fail fetch rows st hex⟩

/-- Witness for the amended C3: a concrete aborted run in which the failing
row's token is in the visited set. -/
theorem c3_row_failure_marks_visited_witness :
    memStr (strL "#/palmeira/portal/compras/contratoView/9")
      ((crawlE (fun _ => Except.error ())
          [[RawItem.mk (strL "#/palmeira/portal/compras/contratoView/9") []]]
          initState).1.visited) = true :=
  (c3_row_failure_marks_visited_and_propagates (fun _ => Except.error ())
      [[RawItem.mk (strL "#/palmeira/portal/compras/contratoView/9") []]]).1
    (strL "#/palmeira/portal/compras/contratoView/9") (by decide)

/-- Counterexample for C4: on a view where no row link ever becomes visible
and the generic table container never appears within the fallback bound,
`wait_table_ready` raises (the fallback `wait_for_selector` call is not
wrapped in a handler), refuting "never raises on timeout". -/
theorem c4_wait_table_ready_raises_counterexample :
    wait_table_ready (fun _ => false) false = Except.error () := rfl

/-- Claim C4 (amended): when the polling budget is exhausted without a visible
actionable row link, `wait_table_ready` falls back to waiting for the generic
table container: it returns normally whenever that container appears within
the fallback bound, and it raises a timeout error exactly when no poll saw a
row and the container does not appear. -/
theorem c4_wait_table_ready_fallback (rv : Nat → Bool) (co : Bool) :
    (co = true → wait_table_ready rv co = Except.ok ()) ∧
    (wait_table_ready rv co = Except.error () ↔
      (∀ i, i < 50 → rv i = false) ∧ co = false) := by
  constructor
  · intro hco
    cases hw : waitLoop rv 0 50 <;> simp [wait_table_ready, hw, hco]
  · constructor
    · intro herr
      cases hw : waitLoop rv 0 50 with
      | true => simp [wait_table_ready, hw] at herr
      | false =>
        cases hco : co with
        | true => simp [wait_table_ready, hw, hco] at herr
        | false =>
          refine ⟨?_, rfl⟩
          intro i hi
          cases hri : rv i with
          | false => rfl
          | true =>
            have hx : waitLoop rv 0 50 = true :=
              (waitLoop_iff rv 50 0).mpr ⟨i, hi, by simpa using hri⟩
            rw [hx] at hw
            exact nomatch hw
    · rintro ⟨hall, hco⟩
      have hw : waitLoop rv 0 50 = false := by
        cases hx : waitLoop rv 0 50 with
        | false => rfl
        | true =>
          exfalso
          obtain ⟨j, hj, ha⟩ := (waitLoop_iff rv 50 0).mp hx
          rw [Nat.zero_add] at ha
          rw [hall j hj] at ha
          exact nomatch ha
      simp [wait_table_ready, hw, hco]

/-- Witness for the amended C4: no row ever appears but the container exists,
so the call returns normally. -/
theorem c4_wait_table_ready_fallback_witness :
    wait_table_ready (fun _ => false) true = Except.ok () :=
  (c4_wait_table_ready_fallback (fun _ => false) true).1 rfl

/-- Claim C6: `collect_rows` returns, in original render order (a sublist of
the batch), exactly the entries whose token is non-empty, contains the
detail-link pattern, is not in the visited set and did not occur earlier in
the batch; duplicate tokens keep their first occurrence. -/
theorem c6_collect_rows_characterization (visited : List Str) (items : List RawItem) :
    List.Sublist (collect_rows visited items) (items.map (fun it => (it.href, it.text))) ∧
    ((collect_rows visited items).map Prod.fst).Nodup ∧
    (∀ p ∈ collect_rows visited items,
      p.1 ≠ [] ∧ hasSub DETAIL_URL_PART p.1 = true ∧ p.1 ∉ visited) ∧
    (∀ it ∈ items, it.href ≠ [] → hasSub DETAIL_URL_PART it.href = true →
      it.href ∉ visited → it.href ∈ (collect_rows visited items).map Prod.fst) ∧
    (∀ h t, (h, t) ∈ collect_rows visited items →
      ∃ pre post, items = pre ++ RawItem.mk h t :: post ∧ ∀ it ∈ pre, it.href ≠ h) := by
  refine ⟨collectAux_sublist visited items [], collectAux_nodup visited items [], ?_, ?_, ?_⟩
  · intro p hp
    have hs := collectAux_sound visited items [] p hp
    have hg := (goodHref_iff p.1).mp hs.1
    refine ⟨hg.1, hg.2, ?_⟩
    intro hmem
    rw [(memStr_iff p.1 visited).mpr hmem] at hs
    exact nomatch hs.2.1
  · intro it hit h1 h2 h3
    have hg : goodHref it.href = true := (goodHref_iff it.href).mpr ⟨h1, h2⟩
    have hv : memStr it.href visited = false := by
      cases hx : memStr it.href visited with
      | false => rfl
      | true => exact absurd ((memStr_iff _ _).mp hx) h3
    rcases collectAux_complete visited items [] it hit hg hv with hs | hmem
    · simp [memStr] at hs
    · exact hmem
  · intro h t hp
    exact collectAux_first visited items [] h t hp rfl

/-- Witness for C6: a qualifying entry of a concrete batch is returned. -/
theorem c6_collect_rows_characterization_witness :
    strL "#/palmeira/portal/compras/contratoView/7"
      ∈ (collect_rows []
          [RawItem.mk (strL "#/palmeira/portal/compras/contratoView/7") (strL "r")]).map
        Prod.fst :=
  (c6_collect_rows_characterization []
      [RawItem.mk (strL "#/palmeira/portal/compras/contratoView/7") (strL "r")]).2.2.2.1
    (RawItem.mk (strL "#/palmeira/portal/compras/contratoView/7") (strL "r"))
    (by decide) (by decide) (by decide) (by decide)

/-- Claim C7: `click_next` returns `false` without attempting any click — the
second component records whether a click was attempted — whenever the next
control is absent, its class attribute contains the token `disabled`, or its
`aria-disabled` attribute is (case-insensitively) `true` or `disabled`. -/
theorem c7_disabled_control_no_click (b : NextBtn) (prev : Str) (sig : Nat → Str)
    (cf : Bool) (rv : Nat → Bool) (co : Bool) :
    click_next none prev sig cf rv co = (Except.ok false, false) ∧
    (disabledLit ∈ pyWords (lowerStr b.cls) →
      click_next (some b) prev sig cf rv co = (Except.ok false, false)) ∧
    (lowerStr b.aria = strL "true" ∨ lowerStr b.aria = strL "disabled" →
      click_next (some b) prev sig cf rv co = (Except.ok false, false)) := by
  refine ⟨rfl, ?_, ?_⟩
  · intro hmem
    have hsub := word_hasSub hmem
    have hd : btnDisabled b = true := by simp [btnDisabled, hsub]
    simp [click_next, hd]
  · intro hor
    have hd : btnDisabled b = true := by
      rcases hor with h | h <;> simp [btnDisabled, h]
    simp [click_next, hd]

/-- Witness for C7: a control whose class tokens include `disabled` makes
`click_next` report no advance and no click attempt. -/
theorem c7_disabled_control_no_click_witness :
    click_next (some (NextBtn.mk (strL "pagination-next disabled") [])) []
      (fun _ => []) false (fun _ => false) false = (Except.ok false, false) :=
  (c7_disabled_control_no_click (NextBtn.mk (strL "pagination-next disabled") [])
      [] (fun _ => []) false (fun _ => false) false).2.1 (by decide)

/-- Claim C8: after any run segment the stash holds a record exactly for the
rows whose extraction outcome had both fields present: every stashed record
has both fields, and every fetched row whose fetch produced a record with
both fields has that record in the stash; records missing a field are never
appended. -/
theorem c8_stash_iff_both_fields (fetch : Str → Except Unit ContractData)
    (batches : List (List RawItem)) :
    (∀ d ∈ (crawlE fetch batches initState).1.stash,
      d.contract.isSome = true ∧ d.amount.isSome = true) ∧
    (∀ h d, h ∈ (crawlE fetch batches initState).1.fetched →
      fetch h = Except.ok d → d.contract.isSome = true → d.amount.isSome = true →
      d ∈ (crawlE fetch batches initState).1.stash) := by
  have h5 := crawlE_stash fetch batches initState
    (fun d hd => absurd hd (List.not_mem_nil d))
    (fun h hh => absurd hh (List.not_mem_nil h))
  constructor
  · intro d hd
    have hg := h5.1 d hd
    simpa [goodRecord, Bool.and_eq_true] using hg
  · intro h d hh hok h1 h2
    exact h5.2 h hh d hok (by simp [goodRecord, h1, h2])

/-- Witness for C8: a row whose fetch yields a complete record is stashed. -/
theorem c8_stash_iff_both_fields_witness :
    ContractData.mk (some (strL "1")) (some (strL "2"))
      ∈ (crawlE (fun _ => Except.ok (ContractData.mk (some (strL "1")) (some (strL "2"))))
          [[RawItem.mk (strL "#/palmeira/portal/compras/contratoView/3") []]]
          initState).1.stash :=
  (c8_stash_iff_both_fields
      (fun _ => Except.ok (ContractData.mk (some (strL "1")) (some (strL "2"))))
      [[RawItem.mk (strL "#/palmeira/portal/compras/contratoView/3") []]]).2
    (strL "#/palmeira/portal/compras/contratoView/3")
    (ContractData.mk (some (strL "1")) (some (strL "2")))
    (by decide) rfl rfl rfl

/-- Claim C9: enumeration is idempotent within a settled view — once the
tokens returned by a first `collect_rows` call are in the visited set (as the
row loop does before the next enumeration), a second call on the same batch
returns the empty list; in flow form, after a row-processing step that
completed without a propagated error, re-enumerating the same batch against
the updated state yields nothing. -/
theorem c9_enumeration_idempotent (fetch : Str → Except Unit ContractData)
    (visited : List Str) (items : List RawItem) (st : CrawlState) :
    collect_rows ((collect_rows visited items).map Prod.fst ++ visited) items = [] ∧
    ((stepE fetch st items).2 = none →
      collect_rows (stepE fetch st items).1.visited items = []) := by
  constructor
  · apply collectAux_empty
    intro it hit hg
    rw [memStr_append]
    cases hv : memStr it.href visited with
    | true => simp
    | false =>
      rcases collectAux_complete visited items [] it hit hg hv with hs | hmem
      · simp [memStr] at hs
      · have hx : memStr it.href ((collect_rows visited items).map Prod.fst) = true :=
          (memStr_iff _ _).mpr hmem
        simp [hx]
  · intro hnone
    apply collectAux_empty
    intro it hit hg
    have hnone' : (processRowsE fetch (collect_rows st.visited items) st).2 = none := hnone
    show memStr it.href (processRowsE fetch (collect_rows st.visited items) st).1.visited
      = true
    cases hv : memStr it.href st.visited with
    | true => exact processRowsE_visited_mono fetch _ st it.href hv
    | false =>
      rcases collectAux_complete st.visited items [] it hit hg hv with hs | hmem
      · simp [memStr] at hs
      · rcases List.mem_map.mp hmem with ⟨p, hp, hfst⟩
        have hv2 := processRowsE_visited_rows fetch _ st hnone' p hp
        rw [hfst] at hv2
        exact hv2

/-- Witness for C9: a concrete batch re-enumerated after a completed
row-processing step yields the empty list. -/
theorem c9_enumeration_idempotent_witness :
    collect_rows
        ((stepE (fun _ => Except.ok (ContractData.mk none none)) initState
            [RawItem.mk (strL "#/palmeira/portal/compras/contratoView/5") []]).1.visited)
        [RawItem.mk (strL "#/palmeira/portal/compras/contratoView/5") []] = [] :=
  (c9_enumeration_idempotent (fun _ => Except.ok (ContractData.mk none none)) []
      [RawItem.mk (strL "#/palmeira/portal/compras/contratoView/5") []] initState).2 rfl

theorem tryContract_some_nonempty {s tok : Str} (h : tryContract s = some tok) :
    tok ≠ [] := by
  unfold tryContract at h
  cases hm : matchLitCI contratoLit s with
  | none => rw [hm] at h; exact nomatch h
  | some r =>
    rw [hm] at h
    cases he : (r.takeWhile isPyWs).isEmpty with
    | true => simp [he] at h
    | false =>
      by_cases hlen : ((r.dropWhile isPyWs).takeWhile isContractChar).length < 3
      · simp [he, hlen] at h
      · simp [he, hlen] at h
        intro hnil
        rw [hnil] at h
        rw [h] at hlen
        simp at hlen

theorem tryAmount_some_nonempty {s tok : Str} (h : tryAmount s = some tok) :
    tok ≠ [] := by
  unfold tryAmount at h
  cases h1 : matchLitCI valorLit s with
  | none => simp [h1] at h
  | some r1 =>
    simp only [h1] at h
    cases h2 : matchLitCI totalLit (r1.dropWhile isPyWs) with
    | none => simp [h2] at h
    | some r2 =>
      simp only [h2] at h
      cases h3 : matchLitCI rsLit (r2.dropWhile isPyWs) with
      | none => simp [h3] at h
      | some r3 =>
        simp only [h3] at h
        cases he : ((r3.dropWhile isPyWs).takeWhile isAmountChar).isEmpty with
        | true => simp [he] at h
        | false =>
          simp [he] at h
          intro hnil
          rw [hnil] at h
          rw [h] at he
          simp at he

theorem searchContract_some_nonempty : ∀ {s tok : Str},
    searchContract s = some tok → tok ≠ [] := by
  intro s
  induction s with
  | nil => intro tok h; exact nomatch h
  | cons c cs ih =>
    intro tok h
    simp only [searchContract] at h
    cases ht : tryContract (c :: cs) with
    | some t =>
      rw [ht] at h
      have : t = tok := by simpa using h
      exact this ▸ tryContract_some_nonempty ht
    | none =>
      rw [ht] at h
      exact ih h

theorem searchAmount_some_nonempty : ∀ {s tok : Str},
    searchAmount s = some tok → tok ≠ [] := by
  intro s
  induction s with
  | nil => intro tok h; exact nomatch h
  | cons c cs ih =>
    intro tok h
    simp only [searchAmount] at h
    cases ht : tryAmount (c :: cs) with
    | some t =>
      rw [ht] at h
      have : t = tok := by simpa using h
      exact this ▸ tryAmount_some_nonempty ht
    | none =>
      rw [ht] at h
      exact ih h

/-- Whenever `_extract` reports a field as present, its value is a non-empty
string, so Python's truthiness test on extraction outcomes coincides with
presence. -/
theorem extract_present_fields_nonempty (t : Str) :
    (∀ c, (_extract t).contract = some c → c ≠ []) ∧
    (∀ a, (_extract t).amount = some a → a ≠ []) := by
  constructor
  · intro c hc
    exact searchContract_some_nonempty (by simpa [_extract] using hc)
  · intro a ha
    exact searchAmount_some_nonempty (by simpa [_extract] using ha)

end Scraper
